import Mathlib

/-!
Verification of the IoMT_Blockchain_Security authentication protocol
(`IoMT_Blockchain_Security/blockchain/auth_protocol.py` and
`IoMT_Blockchain_Security/auth_protocol_fallback.py`).

Shallow embedding conventions:
* Byte strings are `List Nat`, each element intended to lie below 256
  (stated as an explicit hypothesis where a property needs it).
* The external PyCryptodome primitives (SHA-256, HMAC-SHA256 and the
  AES-256 block cipher) are abstracted as fields of `CryptoPrims`;
  everything the repository itself computes (CBC chaining, PKCS#7
  padding, hex encoding, the state machine, key derivation plumbing)
  is embedded concretely.
* Randomness (`get_random_bytes`) is passed in as explicit arguments
  (key material, ephemeral seeds, IVs).
* Python strings that are only ever compared or hashed (the session id,
  which the source encodes to UTF-8 bytes before use) are modelled as
  the byte lists they encode to; event-type strings are Lean strings.
* Timestamps come from the ambient clock and carry no protocol meaning;
  they are dropped from the model.
-/

/-- A byte string: list of naturals, each meant to be a byte value. -/
abbrev Bytes := List Nat

/-- External cryptographic primitives used by the source
(`Crypto.Hash.SHA256`, `Crypto.Hash.HMAC`, `Crypto.Cipher.AES` block
operation). They are abstract here; facts about them (inverse block
cipher, 32-byte digests, byte-valued output) enter as hypotheses. -/
structure CryptoPrims where
  sha256 : Bytes → Bytes
  hmac : Bytes → Bytes → Bytes
  aesEnc : Bytes → Bytes → Bytes
  aesDec : Bytes → Bytes → Bytes

namespace AuthenticationProtocol

/-- Constant `KEY_SIZE = 32` from the source. -/
def KEY_SIZE : Nat := 32

/-- Constant `EPHEMERAL_SIZE = 32` from the source. -/
def EPHEMERAL_SIZE : Nat := 32

/-- Constant `COMMITMENT_SIZE = 16` from the source. -/
def COMMITMENT_SIZE : Nat := 16

/-- Embeds `generate_keypair`: the private key is random bytes (here the
explicit argument `private_key`); the public key is
`SHA256(private_key) || random_bytes(32)` (the salt is the explicit
argument). -/
def generate_keypair (P : CryptoPrims) (private_key salt : Bytes) : Bytes × Bytes :=
  (private_key, P.sha256 private_key ++ salt)

/-- Embeds `encapsulate`: draws an ephemeral seed (explicit argument), computes
`ephemeral_key = SHA256(seed)`, `shared_secret =
SHA256(ephemeral_key || public_key)`, and returns
`(ciphertext, shared_secret)` with `ciphertext = seed`. -/
def encapsulate (P : CryptoPrims) (public_key ephemeral_seed : Bytes) : Bytes × Bytes :=
  let ephemeral_key := P.sha256 ephemeral_seed
  let shared_secret := P.sha256 (ephemeral_key ++ public_key)
  (ephemeral_seed, shared_secret)

/-- Embeds `decapsulate`: recomputes `ephemeral_key = SHA256(ciphertext)` and
`shared_secret = SHA256(ephemeral_key || public_key)`.  The Python body
wraps this in try/except returning `None`, but hashing byte strings
never raises, so the except branch is unreachable: the result is always
`some`.  As in the source, `private_key` is accepted and ignored. -/
def decapsulate (P : CryptoPrims) (private_key ciphertext public_key : Bytes) :
    Option Bytes :=
  let ephemeral_key := P.sha256 ciphertext
  some (P.sha256 (ephemeral_key ++ public_key))

/-- UTF-8 bytes of the literal `b"AUTH_TAG"` used for domain separation. -/
def AUTH_TAG : Bytes := [65, 85, 84, 72, 95, 84, 65, 71]

/-- Embeds `create_session_key`: `session_key = HMAC(shared_secret, session_id)`,
`authentication_tag = HMAC(shared_secret, b"AUTH_TAG" + session_id)`.
`session_id` is the UTF-8 byte string of the Python session-id string. -/
def create_session_key (P : CryptoPrims) (shared_secret session_id : Bytes) :
    Bytes × Bytes :=
  let session_key := P.hmac shared_secret session_id
  let authentication_tag := P.hmac shared_secret (AUTH_TAG ++ session_id)
  (session_key, authentication_tag)

end AuthenticationProtocol

namespace Fallback

/-- Embeds `create_session_key` from `auth_protocol_fallback.py`,
translated separately from its own source text: `session_key =
HMAC(shared_secret, session_id)`, `authentication_tag =
HMAC(shared_secret, b"AUTH_TAG" + session_id)`. -/
def create_session_key (P : CryptoPrims) (shared_secret session_id : Bytes) :
    Bytes × Bytes :=
  let session_key := P.hmac shared_secret session_id
  let authentication_tag := P.hmac shared_secret (AuthenticationProtocol.AUTH_TAG ++ session_id)
  (session_key, authentication_tag)

end Fallback

/-- The four values the `state` string field of
`DeviceAuthenticationSession` takes. -/
inductive SessionState where
  | INITIALIZED
  | PUBLIC_KEY_RECEIVED
  | ENCAPSULATED
  | AUTHENTICATED
deriving DecidableEq

/-- The mutable fields of `DeviceAuthenticationSession`.  `events` keeps
only the `event_type` strings appended by `_log_event` (their timestamps
carry no protocol meaning).  `device_id`, `gateway_id` and `created_at`
never influence behaviour and are represented by `session_id` alone. -/
structure Session where
  session_id : Bytes
  state : SessionState
  device_public_key : Option Bytes
  shared_secret : Option Bytes
  session_key : Option Bytes
  authentication_tag : Option Bytes
  events : List String
deriving DecidableEq

/-- Embeds `DeviceAuthenticationSession.__init__`: state `INITIALIZED`, all key
material absent, empty event log. -/
def initSession (session_id : Bytes) : Session :=
  { session_id := session_id
    state := .INITIALIZED
    device_public_key := none
    shared_secret := none
    session_key := none
    authentication_tag := none
    events := [] }

/-- Result of `start_authentication`: the source returns a status dict,
either an error message or `{session_id, ciphertext, commitment}` (plus
a timestamp, dropped here). -/
inductive StartResult where
  | err (message : String)
  | ok (session_id ciphertext commitment : Bytes)
deriving DecidableEq

/-- Embeds `DeviceAuthenticationSession.start_authentication`: valid only in
`INITIALIZED` (otherwise the error dict `"Invalid session state"` is
returned and nothing changes); stores the device public key, logs
`PUBLIC_KEY_RECEIVED`, encapsulates against it with the fresh
`ephemeral_seed`, stores the shared secret, logs `ENCAPSULATED`, and
returns the ciphertext together with the first `COMMITMENT_SIZE` bytes
of the shared secret. -/
def start_authentication (P : CryptoPrims) (s : Session)
    (device_public_key ephemeral_seed : Bytes) : Session × StartResult :=
  if s.state = .INITIALIZED then
    let s1 := { s with device_public_key := some device_public_key
                       state := .PUBLIC_KEY_RECEIVED
                       events := s.events ++ ["PUBLIC_KEY_RECEIVED"] }
    let r := AuthenticationProtocol.encapsulate P device_public_key ephemeral_seed
    let s2 := { s1 with shared_secret := some r.2
                        state := .ENCAPSULATED
                        events := s1.events ++ ["ENCAPSULATED"] }
    (s2, .ok s.session_id r.1 (r.2.take AuthenticationProtocol.COMMITMENT_SIZE))
  else (s, .err "Invalid session state")

/-- Embeds `DeviceAuthenticationSession.verify_authentication`: outside
`ENCAPSULATED`, or with no shared secret stored, returns `False` without
logging; with a wrong commitment logs `AUTHENTICATION_FAILED` and
returns `False`; with the right commitment derives and stores the
session key and authentication tag, moves to `AUTHENTICATED`, logs
`AUTHENTICATED` and returns `True`. -/
def verify_authentication (P : CryptoPrims) (s : Session)
    (device_commitment : Bytes) : Session × Bool :=
  if s.state = .ENCAPSULATED then
    match s.shared_secret with
    | some ss =>
      let expected := ss.take AuthenticationProtocol.COMMITMENT_SIZE
      if device_commitment = expected then
        let kp := AuthenticationProtocol.create_session_key P ss s.session_id
        ({ s with session_key := some kp.1
                  authentication_tag := some kp.2
                  state := .AUTHENTICATED
                  events := s.events ++ ["AUTHENTICATED"] }, true)
      else
        ({ s with events := s.events ++ ["AUTHENTICATION_FAILED"] }, false)
    | none => (s, false)
  else (s, false)

/-! ### Byte-level helpers the source delegates to PyCryptodome utilities

CBC chaining, PKCS#7 padding (`Crypto.Util.Padding.pad`/`unpad` with
`block_size = 16`) and hex encoding (`bytes.hex`/`bytes.fromhex`) are
deterministic algorithms, embedded concretely. Hex strings are modelled
as the lists of their character codes. -/

/-- Pointwise XOR of two byte strings (truncating to the shorter). -/
def xorBytes (a b : Bytes) : Bytes := List.zipWith Nat.xor a b

/-- Fuel-based worker for CBC encryption.  Each step consumes one unit
of fuel and 16 bytes of plaintext, so any fuel at least the plaintext
length makes the fuel irrelevant; the structural recursion keeps the
definition computable by the kernel. -/
def cbcEncAux (P : CryptoPrims) (key : Bytes) : Nat → Bytes → Bytes → Bytes
  | _, _, [] => []
  | 0, _, _ :: _ => []
  | fuel + 1, prev, b :: bs =>
    let c := P.aesEnc key (xorBytes prev ((b :: bs).take 16))
    c ++ cbcEncAux P key fuel c ((b :: bs).drop 16)

/-- AES-CBC encryption of a full-block plaintext: each 16-byte block is
XORed with the previous ciphertext block (initially the IV) and sent
through the block cipher. -/
def cbcEnc (P : CryptoPrims) (key prev pt : Bytes) : Bytes :=
  cbcEncAux P key pt.length prev pt

/-- Fuel-based worker for CBC decryption. -/
def cbcDecAux (P : CryptoPrims) (key : Bytes) : Nat → Bytes → Bytes → Bytes
  | _, _, [] => []
  | 0, _, _ :: _ => []
  | fuel + 1, prev, b :: bs =>
    xorBytes prev (P.aesDec key ((b :: bs).take 16)) ++
      cbcDecAux P key fuel ((b :: bs).take 16) ((b :: bs).drop 16)

/-- AES-CBC decryption: each ciphertext block is deciphered and XORed
with the previous ciphertext block (initially the IV). -/
def cbcDec (P : CryptoPrims) (key prev ct : Bytes) : Bytes :=
  cbcDecAux P key ct.length prev ct

/-- Embeds `Crypto.Util.Padding.pad` with block size 16 (PKCS#7): append
`n = 16 - len % 16` copies of the byte `n`. -/
def pad (pt : Bytes) : Bytes :=
  let n := 16 - pt.length % 16
  pt ++ List.replicate n n

/-- Embeds `Crypto.Util.Padding.unpad` with block size 16 (PKCS#7): reject
empty or non-block-aligned input, read the final byte `p`, require
`1 ≤ p ≤ 16` and the last `p` bytes all equal to `p`, and strip them. -/
def unpad (b : Bytes) : Option Bytes :=
  if b.length = 0 ∨ b.length % 16 ≠ 0 then none
  else
    let p := b.getLastD 0
    if p = 0 ∨ 16 < p then none
    else if b.drop (b.length - p) = List.replicate p p then
      some (b.take (b.length - p))
    else none

/-- Lower-case hex digit of a value below 16, as a character code
(`'0'..'9'` then `'a'..'f'`), as produced by `bytes.hex()`. -/
def hexDigit (n : Nat) : Nat := if n < 10 then 48 + n else 87 + n

/-- Embeds `bytes.hex()`: two lower-case hex digits per byte, as a list of
character codes. -/
def bytesToHex : Bytes → List Nat
  | [] => []
  | b :: rest => hexDigit (b / 16) :: hexDigit (b % 16) :: bytesToHex rest

/-- Value of a single hex digit character code, accepting the digit,
lower-case and upper-case ranges that `bytes.fromhex` accepts. -/
def hexDigitVal (c : Nat) : Option Nat :=
  if 48 ≤ c ∧ c ≤ 57 then some (c - 48)
  else if 97 ≤ c ∧ c ≤ 102 then some (c - 87)
  else if 65 ≤ c ∧ c ≤ 70 then some (c - 55)
  else none

/-- Embeds `bytes.fromhex`: pairs of hex digits to bytes; fails on odd length
or a non-hex character (the source catches the raised `ValueError`). -/
def hexToBytes : List Nat → Option Bytes
  | [] => some []
  | [_] => none
  | c1 :: c2 :: rest =>
    match hexDigitVal c1, hexDigitVal c2, hexToBytes rest with
    | some hi, some lo, some bs => some ((16 * hi + lo) :: bs)
    | _, _, _ => none

/-- Result of `encrypt_message`: either the error dict (the source uses
`{"status": "ERROR", "message": ...}`) or the `{iv, ciphertext, hmac}`
dict of hex strings (timestamp dropped). -/
inductive EncResult where
  | err (message : String)
  | ok (iv_hex ciphertext_hex hmac_hex : List Nat)
deriving DecidableEq

/-- Embeds `DeviceAuthenticationSession.encrypt_message`: outside
`AUTHENTICATED` (or with no session key) returns the
`"Session not authenticated"` error dict; otherwise draws a fresh
16-byte IV (explicit argument), AES-256-CBC-encrypts the PKCS#7-padded
plaintext under the session key, MACs the ciphertext with
HMAC-SHA256 under the same key, and returns all three hex-encoded.
The source logs no event here and leaves the session unchanged. -/
def encrypt_message (P : CryptoPrims) (s : Session) (plaintext iv : Bytes) :
    EncResult :=
  if s.state = .AUTHENTICATED then
    match s.session_key with
    | some key =>
      let ciphertext := cbcEnc P key iv (pad plaintext)
      let hmac_tag := P.hmac key ciphertext
      .ok (bytesToHex iv) (bytesToHex ciphertext) (bytesToHex hmac_tag)
    | none => .err "Session not authenticated"
  else .err "Session not authenticated"

/-- Embeds `DeviceAuthenticationSession.decrypt_message`: outside
`AUTHENTICATED` (or with no session key) returns `None` without
logging; then hex-decodes the three fields, recomputes
`HMAC(session_key, ciphertext)` and on mismatch logs
`DECRYPTION_HMAC_FAILED` and returns `None`; otherwise CBC-decrypts and
unpads, logging `MESSAGE_DECRYPTED` on success.  Any raised error (bad
hex, bad padding) is caught by the source and logged as a
`DECRYPTION_ERROR` event with `None` returned. -/
def decrypt_message (P : CryptoPrims) (s : Session)
    (iv_hex ciphertext_hex hmac_hex : List Nat) : Session × Option Bytes :=
  if s.state = .AUTHENTICATED then
    match s.session_key with
    | some key =>
      match hexToBytes iv_hex, hexToBytes ciphertext_hex, hexToBytes hmac_hex with
      | some iv, some ciphertext, some hmac_received =>
        let hmac_expected := P.hmac key ciphertext
        if hmac_received = hmac_expected then
          match unpad (cbcDec P key iv ciphertext) with
          | some plaintext =>
            ({ s with events := s.events ++ ["MESSAGE_DECRYPTED"] }, some plaintext)
          | none => ({ s with events := s.events ++ ["DECRYPTION_ERROR"] }, none)
        else
          ({ s with events := s.events ++ ["DECRYPTION_HMAC_FAILED"] }, none)
      | _, _, _ => ({ s with events := s.events ++ ["DECRYPTION_ERROR"] }, none)
    | none => (s, none)
  else (s, none)

/-- Flip bit `j` of byte `i` of a byte string. -/
def flipBit (bs : Bytes) (i j : Nat) : Bytes :=
  bs.set i (Nat.xor (bs.getD i 0) (2 ^ j))

/-- Sessions reachable from a fresh session through the state-machine
operations, with arbitrary inputs and randomness at each step. -/
inductive Reach (P : CryptoPrims) (sid : Bytes) : Session → Prop where
  | init : Reach P sid (initSession sid)
  | start (s dpk seed) : Reach P sid s →
      Reach P sid (start_authentication P s dpk seed).1
  | verify (s dc) : Reach P sid s →
      Reach P sid (verify_authentication P s dc).1

/-- Concrete stand-in primitives used to witness theorems at explicit
inputs: a length-32 digest, a concatenation MAC and a reversal block
cipher.  They satisfy the structural hypotheses the theorems place on
the abstract primitives. -/
def toyPrims : CryptoPrims where
  sha256 := fun bs => List.replicate 32 (bs.foldl (fun a b => (a + b) % 256) 0)
  hmac := fun k m => k ++ m
  aesEnc := fun _ b => b.reverse
  aesDec := fun _ b => b.reverse

/-! ### Helper lemmas -/

theorem xorBytes_length (a b : Bytes) : (xorBytes a b).length = min a.length b.length := by
  simp [xorBytes]

theorem xor_xor_self_cancel (x y : Nat) : Nat.xor x (Nat.xor x y) = y := by
  show x ^^^ (x ^^^ y) = y
  rw [← Nat.xor_assoc, Nat.xor_self, Nat.zero_xor]

theorem xorBytes_xorBytes_cancel :
    ∀ a b : Bytes, b.length ≤ a.length → xorBytes a (xorBytes a b) = b := by
  intro a
  induction a with
  | nil => intro b hb; simp_all [xorBytes]
  | cons x xs ih =>
    intro b hb
    cases b with
    | nil => simp [xorBytes]
    | cons y ys =>
      simp only [xorBytes, List.zipWith_cons_cons, List.cons.injEq]
      constructor
      · exact xor_xor_self_cancel x y
      · exact ih ys (by simpa using hb)

theorem cbcEncAux_nil (P : CryptoPrims) (key : Bytes) (fuel : Nat) (prev : Bytes) :
    cbcEncAux P key fuel prev [] = [] := by
  cases fuel <;> rfl

theorem cbcEncAux_cons (P : CryptoPrims) (key : Bytes) (fuel : Nat) (prev pt : Bytes)
    (h : pt ≠ []) :
    cbcEncAux P key (fuel + 1) prev pt =
      P.aesEnc key (xorBytes prev (pt.take 16)) ++
        cbcEncAux P key fuel (P.aesEnc key (xorBytes prev (pt.take 16))) (pt.drop 16) := by
  cases pt with
  | nil => exact absurd rfl h
  | cons b bs => rfl

theorem cbcDecAux_nil (P : CryptoPrims) (key : Bytes) (fuel : Nat) (prev : Bytes) :
    cbcDecAux P key fuel prev [] = [] := by
  cases fuel <;> rfl

theorem cbcDecAux_cons (P : CryptoPrims) (key : Bytes) (fuel : Nat) (prev ct : Bytes)
    (h : ct ≠ []) :
    cbcDecAux P key (fuel + 1) prev ct =
      xorBytes prev (P.aesDec key (ct.take 16)) ++
        cbcDecAux P key fuel (ct.take 16) (ct.drop 16) := by
  cases ct with
  | nil => exact absurd rfl h
  | cons b bs => rfl

/-- CBC decryption inverts CBC encryption whenever the block cipher is
inverted by its decryption direction and maps 16-byte blocks to 16-byte
blocks, the chaining value is 16 bytes, the plaintext is block-aligned
and both sides have enough fuel. -/
theorem cbcDecAux_cbcEncAux (P : CryptoPrims) (key : Bytes)
    (hdec : ∀ b : Bytes, b.length = 16 → P.aesDec key (P.aesEnc key b) = b)
    (hlen : ∀ b : Bytes, b.length = 16 → (P.aesEnc key b).length = 16) :
    ∀ fuel (prev pt : Bytes), pt.length ≤ fuel → prev.length = 16 →
      pt.length % 16 = 0 →
      ∀ fuelD, (cbcEncAux P key fuel prev pt).length ≤ fuelD →
        cbcDecAux P key fuelD prev (cbcEncAux P key fuel prev pt) = pt := by
  intro fuel
  induction fuel with
  | zero =>
    intro prev pt hfuel _ _ fuelD _
    have hpt : pt = [] := List.length_eq_zero.mp (by omega)
    subst hpt
    simp [cbcEncAux_nil, cbcDecAux_nil]
  | succ fuel ih =>
    intro prev pt hfuel hprev hmod fuelD hD
    by_cases hpt : pt = []
    · subst hpt; simp [cbcEncAux_nil, cbcDecAux_nil]
    · have hptlen : 16 ≤ pt.length := by
        have h0 : 0 < pt.length := List.length_pos.mpr hpt
        omega
      have htake : (pt.take 16).length = 16 := by
        simp [List.length_take]; omega
      have hxlen : (xorBytes prev (pt.take 16)).length = 16 := by
        rw [xorBytes_length, hprev, htake]
        simp
      have hclen : (P.aesEnc key (xorBytes prev (pt.take 16))).length = 16 :=
        hlen _ hxlen
      set c := P.aesEnc key (xorBytes prev (pt.take 16)) with hc
      rw [cbcEncAux_cons P key fuel prev pt hpt, ← hc] at hD ⊢
      have hDlen : 16 + (cbcEncAux P key fuel c (pt.drop 16)).length ≤ fuelD := by
        rw [List.length_append, hclen] at hD
        omega
      cases fuelD with
      | zero => omega
      | succ fuelD =>
        have hne : c ++ cbcEncAux P key fuel c (pt.drop 16) ≠ [] := by
          intro hcontra
          rw [List.append_eq_nil] at hcontra
          rw [hcontra.1] at hclen
          simp at hclen
        rw [cbcDecAux_cons P key fuelD prev _ hne]
        have htakec : (c ++ cbcEncAux P key fuel c (pt.drop 16)).take 16 = c := by
          rw [← hclen, List.take_left]
        have hdropc : (c ++ cbcEncAux P key fuel c (pt.drop 16)).drop 16
            = cbcEncAux P key fuel c (pt.drop 16) := by
          rw [← hclen, List.drop_left]
        rw [htakec, hdropc, hc, hdec _ hxlen, ← hc]
        rw [xorBytes_xorBytes_cancel prev (pt.take 16) (by omega)]
        have hrec : cbcDecAux P key fuelD c (cbcEncAux P key fuel c (pt.drop 16))
            = pt.drop 16 := by
          apply ih c (pt.drop 16) (by simp [List.length_drop]; omega) hclen
            (by simp [List.length_drop]; omega) fuelD (by omega)
        rw [hrec, List.take_append_drop]

/-- CBC decryption inverts CBC encryption (wrapper level). -/
theorem cbcDec_cbcEnc (P : CryptoPrims) (key : Bytes)
    (hdec : ∀ b : Bytes, b.length = 16 → P.aesDec key (P.aesEnc key b) = b)
    (hlen : ∀ b : Bytes, b.length = 16 → (P.aesEnc key b).length = 16)
    (prev pt : Bytes) (hprev : prev.length = 16) (hmod : pt.length % 16 = 0) :
    cbcDec P key prev (cbcEnc P key prev pt) = pt := by
  unfold cbcDec cbcEnc
  exact cbcDecAux_cbcEncAux P key hdec hlen pt.length prev pt le_rfl hprev hmod _ le_rfl

/-- Pointwise XOR of byte strings stays byte-valued. -/
theorem xorBytes_bytes :
    ∀ a b : Bytes, (∀ x ∈ a, x < 256) → (∀ x ∈ b, x < 256) →
      ∀ x ∈ xorBytes a b, x < 256 := by
  intro a
  induction a with
  | nil => intro b _ _ x hx; simp [xorBytes] at hx
  | cons y ys ih =>
    intro b ha hb x hx
    cases b with
    | nil => simp [xorBytes] at hx
    | cons z zs =>
      simp only [xorBytes, List.zipWith_cons_cons, List.mem_cons] at hx
      rcases hx with hx | hx
      · subst hx
        have hy : y < 256 := ha y (by simp)
        have hz : z < 256 := hb z (by simp)
        exact Nat.xor_lt_two_pow (n := 8) hy hz
      · exact ih zs (fun u hu => ha u (by simp [hu]))
          (fun u hu => hb u (by simp [hu])) x hx

/-- Every byte of a CBC ciphertext is a byte, provided the block cipher
maps byte strings to byte strings. -/
theorem cbcEncAux_bytes (P : CryptoPrims) (key : Bytes)
    (hencb : ∀ b : Bytes, (∀ x ∈ b, x < 256) → ∀ x ∈ P.aesEnc key b, x < 256) :
    ∀ fuel (prev pt : Bytes), (∀ x ∈ prev, x < 256) → (∀ x ∈ pt, x < 256) →
      ∀ x ∈ cbcEncAux P key fuel prev pt, x < 256 := by
  intro fuel
  induction fuel with
  | zero =>
    intro prev pt _ _ x hx
    cases pt <;> simp [cbcEncAux] at hx
  | succ fuel ih =>
    intro prev pt hprev hpt x hx
    by_cases hpte : pt = []
    · subst hpte; simp [cbcEncAux_nil] at hx
    · rw [cbcEncAux_cons P key fuel prev pt hpte] at hx
      have hxor : ∀ y ∈ xorBytes prev (pt.take 16), y < 256 :=
        xorBytes_bytes prev (pt.take 16) hprev
          (fun y hy => hpt y (List.take_subset _ _ hy))
      have hcb : ∀ y ∈ P.aesEnc key (xorBytes prev (pt.take 16)), y < 256 :=
        hencb _ hxor
      rcases List.mem_append.mp hx with hx1 | hx2
      · exact hcb x hx1
      · exact ih _ (pt.drop 16) hcb
          (fun y hy => hpt y (List.drop_subset _ _ hy)) x hx2

/-- Wrapper form of `cbcEncAux_bytes`. -/
theorem cbcEnc_bytes (P : CryptoPrims) (key : Bytes)
    (hencb : ∀ b : Bytes, (∀ x ∈ b, x < 256) → ∀ x ∈ P.aesEnc key b, x < 256)
    (prev pt : Bytes) (hprev : ∀ x ∈ prev, x < 256) (hpt : ∀ x ∈ pt, x < 256) :
    ∀ x ∈ cbcEnc P key prev pt, x < 256 :=
  cbcEncAux_bytes P key hencb pt.length prev pt hprev hpt

/-- Every byte of a PKCS#7-padded byte string is a byte. -/
theorem pad_bytes (pt : Bytes) (hpt : ∀ x ∈ pt, x < 256) :
    ∀ x ∈ pad pt, x < 256 := by
  intro x hx
  simp only [pad] at hx
  rcases List.mem_append.mp hx with h | h
  · exact hpt x h
  · have hxeq := List.eq_of_mem_replicate h
    omega

/-- Padded length is a multiple of the block size. -/
theorem pad_length_mod (pt : Bytes) : (pad pt).length % 16 = 0 := by
  simp only [pad, List.length_append, List.length_replicate]
  omega

/-- PKCS#7 unpadding inverts PKCS#7 padding. -/
theorem unpad_pad (pt : Bytes) : unpad (pad pt) = some pt := by
  set L := pt.length with hL
  have hmod : L % 16 < 16 := Nat.mod_lt _ (by omega)
  set n := 16 - L % 16 with hn
  have hn1 : 1 ≤ n := by omega
  have hn16 : n ≤ 16 := by omega
  have hpadlen : (pad pt).length = L + n := by
    simp [pad, ← hL, ← hn]
  have hlenmod : (L + n) % 16 = 0 := by omega
  have hlast : (pad pt).getLastD 0 = n := by
    have hrepl : List.replicate n n = List.replicate (n - 1) n ++ [n] := by
      have : n = (n - 1) + 1 := by omega
      rw [this, List.replicate_succ']
      simp
    simp only [pad, ← hL, ← hn]
    rw [hrepl, ← List.append_assoc]
    exact List.getLastD_concat _ _ _
  have hdrop : (pad pt).drop ((pad pt).length - n) = List.replicate n n := by
    rw [hpadlen]
    have : L + n - n = L := by omega
    rw [this]
    simp only [pad, ← hL, ← hn]
    have hLeq : L = pt.length := hL
    rw [hLeq, List.drop_left]
  have htake : (pad pt).take ((pad pt).length - n) = pt := by
    rw [hpadlen]
    have : L + n - n = L := by omega
    rw [this]
    simp only [pad, ← hL, ← hn]
    rw [hL, List.take_left]
  unfold unpad
  rw [hpadlen, hlast]
  have hne0 : ¬ (L + n = 0 ∨ (L + n) % 16 ≠ 0) := by omega
  rw [if_neg hne0]
  have hne1 : ¬ (n = 0 ∨ 16 < n) := by omega
  simp only [hne1, if_false]
  rw [← hpadlen, hdrop, htake]
  simp

/-- Each hex digit value below 16 round-trips through encode/decode. -/
theorem hexDigitVal_hexDigit : ∀ d : Nat, d < 16 → hexDigitVal (hexDigit d) = some d := by
  decide

/-- Hex decoding inverts hex encoding on byte-valued lists. -/
theorem hexToBytes_bytesToHex :
    ∀ bs : Bytes, (∀ b ∈ bs, b < 256) → hexToBytes (bytesToHex bs) = some bs := by
  intro bs
  induction bs with
  | nil => intro _; rfl
  | cons b rest ih =>
    intro hb
    have hblt : b < 256 := hb b (by simp)
    have hhi : b / 16 < 16 := by omega
    have hlo : b % 16 < 16 := by omega
    have hrest : hexToBytes (bytesToHex rest) = some rest :=
      ih (fun x hx => hb x (by simp [hx]))
    simp only [bytesToHex, hexToBytes, hexDigitVal_hexDigit _ hhi,
      hexDigitVal_hexDigit _ hlo, hrest]
    congr 1
    have : 16 * (b / 16) + b % 16 = b := Nat.div_add_mod b 16
    simp [this]

/-- XORing in a nonzero power of two changes the value. -/
theorem xor_pow_two_ne (x j : Nat) : Nat.xor x (2 ^ j) ≠ x := by
  intro h
  have h2 : Nat.xor x (Nat.xor x (2 ^ j)) = Nat.xor x x := by rw [h]
  rw [xor_xor_self_cancel] at h2
  have hself : Nat.xor x x = 0 := Nat.xor_self x
  rw [hself] at h2
  exact (by positivity : (2 : Nat) ^ j ≠ 0) h2

/-- A bit flip inside the list changes it. -/
theorem flipBit_ne (bs : Bytes) (i j : Nat) (hi : i < bs.length) :
    flipBit bs i j ≠ bs := by
  intro hcontra
  have hset : (flipBit bs i j)[i]? = some (Nat.xor (bs.getD i 0) (2 ^ j)) := by
    simp [flipBit, List.getElem?_set, hi]
  rw [hcontra] at hset
  have horig : bs[i]? = some (bs.getD i 0) := by
    rw [List.getElem?_eq_getElem hi, List.getD_eq_getElem _ _ hi]
  rw [horig] at hset
  exact xor_pow_two_ne (bs.getD i 0) j (Option.some.inj hset).symm

/-- A single-bit flip keeps every element a byte. -/
theorem flipBit_bytes (bs : Bytes) (i j : Nat) (hj : j < 8)
    (hb : ∀ b ∈ bs, b < 256) : ∀ b ∈ flipBit bs i j, b < 256 := by
  intro b hbmem
  simp only [flipBit] at hbmem
  rcases List.mem_or_eq_of_mem_set hbmem with hmem | heq
  · exact hb b hmem
  · subst heq
    have hx : bs.getD i 0 < 256 := by
      by_cases hi : i < bs.length
      · rw [List.getD_eq_getElem _ _ hi]
        exact hb _ (List.getElem_mem hi)
      · rw [List.getD_eq_default _ _ (by omega)]; omega
    have h2 : (2 : Nat) ^ j < 256 := by
      calc (2 : Nat) ^ j < 2 ^ 8 := Nat.pow_lt_pow_right (by omega) hj
      _ = 256 := by norm_num
    exact Nat.xor_lt_two_pow (n := 8) hx h2

/-! ### Concrete sessions used to witness the theorems -/

/-- A session that has completed encapsulation: state `ENCAPSULATED`
with a stored 32-byte shared secret. -/
def wEncSession : Session :=
  { initSession [10, 11] with
      state := .ENCAPSULATED
      device_public_key := some (List.replicate 64 2)
      shared_secret := some (List.replicate 32 7)
      events := ["PUBLIC_KEY_RECEIVED", "ENCAPSULATED"] }

/-- A 32-byte session key used in witnesses. -/
def wKey : Bytes := List.replicate 32 1

/-- An authenticated session holding `wKey`. -/
def wAuthSession : Session :=
  { wEncSession with
      state := .AUTHENTICATED
      session_key := some wKey
      events := wEncSession.events ++ ["AUTHENTICATED"] }

/-! ### Claim theorems -/

/-- C1: for every keypair and every encapsulation against its public
key, decapsulating the returned ciphertext with the same public key
yields exactly the shared secret of that same encapsulation call. -/
theorem decapsulate_recovers_shared_secret (P : CryptoPrims)
    (private_key public_key ephemeral_seed : Bytes) :
    AuthenticationProtocol.decapsulate P private_key
        (AuthenticationProtocol.encapsulate P public_key ephemeral_seed).1 public_key
      = some (AuthenticationProtocol.encapsulate P public_key ephemeral_seed).2 := rfl

/-- C6: decapsulation ignores its private-key argument: any two private
keys produce identical shared secrets on the same ciphertext and public
key. -/
theorem decapsulate_private_key_independent (P : CryptoPrims)
    (sk1 sk2 ciphertext public_key : Bytes) :
    AuthenticationProtocol.decapsulate P sk1 ciphertext public_key =
      AuthenticationProtocol.decapsulate P sk2 ciphertext public_key := rfl

/-- C10: the fallback module's `create_session_key` agrees with the main
protocol module's `create_session_key` on every shared secret and
session id. -/
theorem create_session_key_fallback_equiv (P : CryptoPrims)
    (shared_secret session_id : Bytes) :
    Fallback.create_session_key P shared_secret session_id =
      AuthenticationProtocol.create_session_key P shared_secret session_id := rfl

/-- C9 counterexample: on a malformed input (empty ciphertext, not 32
bytes; empty public key, not 64 bytes) `decapsulate` does not fail: it
still returns a shared secret.  The source performs no length
validation and its try/except never fires. -/
theorem decapsulate_no_length_check_counterexample :
    ([] : Bytes).length ≠ 32 ∧
      (AuthenticationProtocol.decapsulate toyPrims [] [] []).isSome = true := by
  decide

/-- C9 (amended): `decapsulate` never fails, on malformed lengths or
otherwise: for every private key, ciphertext and public key of any
lengths it returns `some` shared secret, and that secret has 32 bytes
whenever the hash has 32-byte digests. -/
theorem decapsulate_total_spec (P : CryptoPrims)
    (private_key ciphertext public_key : Bytes)
    (h32 : ∀ x : Bytes, (P.sha256 x).length = 32) :
    AuthenticationProtocol.decapsulate P private_key ciphertext public_key
        = some (P.sha256 (P.sha256 ciphertext ++ public_key)) ∧
      (P.sha256 (P.sha256 ciphertext ++ public_key)).length = 32 :=
  ⟨rfl, h32 _⟩

/-- Witness for C9 (amended) at a concrete malformed-length input. -/
theorem decapsulate_total_spec_witness :
    AuthenticationProtocol.decapsulate toyPrims [1] [2, 3] [4]
        = some (toyPrims.sha256 (toyPrims.sha256 [2, 3] ++ [4])) ∧
      (toyPrims.sha256 (toyPrims.sha256 [2, 3] ++ [4])).length = 32 :=
  decapsulate_total_spec toyPrims [1] [2, 3] [4] (fun x => by simp [toyPrims])

/-- C5: on a session whose state is not `AUTHENTICATED`,
`encrypt_message` returns the not-authenticated error dict and
`decrypt_message` returns `None` with the session untouched; neither
produces a ciphertext or plaintext. -/
theorem ops_require_authenticated_state (P : CryptoPrims) (s : Session)
    (plaintext iv : Bytes) (iv_hex ciphertext_hex hmac_hex : List Nat)
    (hstate : s.state ≠ .AUTHENTICATED) :
    encrypt_message P s plaintext iv = .err "Session not authenticated" ∧
      decrypt_message P s iv_hex ciphertext_hex hmac_hex = (s, none) := by
  constructor
  · simp [encrypt_message, hstate]
  · simp [decrypt_message, hstate]

/-- Witness for C5 on a concrete `ENCAPSULATED` session. -/
theorem ops_require_authenticated_state_witness :
    encrypt_message toyPrims wEncSession [1] [2] = .err "Session not authenticated" ∧
      decrypt_message toyPrims wEncSession [3] [4] [5] = (wEncSession, none) :=
  ops_require_authenticated_state toyPrims wEncSession [1] [2] [3] [4] [5] (by decide)

/-- C8: failing state-machine operations change nothing the caller can
observe except the log: `start_authentication` outside `INITIALIZED`
returns the error dict and the session unchanged;
`verify_authentication` outside `ENCAPSULATED` (or without a shared
secret) returns `false` and the session unchanged; and a wrong
commitment in `ENCAPSULATED` returns `false`, appends only the
`AUTHENTICATION_FAILED` event and leaves the `state` field unchanged. -/
theorem failed_ops_preserve_state (P : CryptoPrims) (s : Session)
    (device_public_key ephemeral_seed device_commitment ss : Bytes) :
    (s.state ≠ .INITIALIZED →
      start_authentication P s device_public_key ephemeral_seed
        = (s, .err "Invalid session state")) ∧
    ((s.state ≠ .ENCAPSULATED ∨ s.shared_secret = none) →
      verify_authentication P s device_commitment = (s, false)) ∧
    (s.state = .ENCAPSULATED → s.shared_secret = some ss →
      device_commitment ≠ ss.take AuthenticationProtocol.COMMITMENT_SIZE →
      verify_authentication P s device_commitment
          = ({ s with events := s.events ++ ["AUTHENTICATION_FAILED"] }, false) ∧
        (verify_authentication P s device_commitment).1.state = s.state) := by
  refine ⟨?_, ?_, ?_⟩
  · intro h
    simp [start_authentication, h]
  · intro h
    rcases h with h | h
    · simp [verify_authentication, h]
    · by_cases hst : s.state = .ENCAPSULATED
      · simp [verify_authentication, hst, h]
      · simp [verify_authentication, hst]
  · intro h1 h2 h3
    constructor
    · simp [verify_authentication, h1, h2, h3]
    · simp [verify_authentication, h1, h2, h3]

/-- Witness for C8 on a concrete `ENCAPSULATED` session with a wrong
commitment. -/
theorem failed_ops_preserve_state_witness :
    (wEncSession.state ≠ .INITIALIZED →
      start_authentication toyPrims wEncSession [1] [2]
        = (wEncSession, .err "Invalid session state")) ∧
    ((wEncSession.state ≠ .ENCAPSULATED ∨ wEncSession.shared_secret = none) →
      verify_authentication toyPrims wEncSession (List.replicate 16 0)
        = (wEncSession, false)) ∧
    (wEncSession.state = .ENCAPSULATED →
      wEncSession.shared_secret = some (List.replicate 32 7) →
      List.replicate 16 0
          ≠ (List.replicate 32 7).take AuthenticationProtocol.COMMITMENT_SIZE →
      verify_authentication toyPrims wEncSession (List.replicate 16 0)
          = ({ wEncSession with
                events := wEncSession.events ++ ["AUTHENTICATION_FAILED"] }, false) ∧
        (verify_authentication toyPrims wEncSession (List.replicate 16 0)).1.state
          = wEncSession.state) :=
  failed_ops_preserve_state toyPrims wEncSession [1] [2] (List.replicate 16 0)
    (List.replicate 32 7)

/-- C2: in `ENCAPSULATED` with a stored shared secret, verifying with
`shared_secret[0:16]` returns `true`, stores the derived
`SessionKeyMaterial`, moves to `AUTHENTICATED` and logs `AUTHENTICATED`;
any other 16-byte commitment returns `false`, logs
`AUTHENTICATION_FAILED` and leaves the state at `ENCAPSULATED`; and a
second call after the success returns `false`, so `true` is returned at
most once per handshake. -/
theorem verify_authentication_spec (P : CryptoPrims) (s : Session)
    (ss dc dc2 : Bytes)
    (hstate : s.state = .ENCAPSULATED) (hss : s.shared_secret = some ss) :
    (verify_authentication P s
        (ss.take AuthenticationProtocol.COMMITMENT_SIZE)).2 = true ∧
    (verify_authentication P s
        (ss.take AuthenticationProtocol.COMMITMENT_SIZE)).1.state = .AUTHENTICATED ∧
    (verify_authentication P s
        (ss.take AuthenticationProtocol.COMMITMENT_SIZE)).1.session_key
      = some (AuthenticationProtocol.create_session_key P ss s.session_id).1 ∧
    (verify_authentication P s
        (ss.take AuthenticationProtocol.COMMITMENT_SIZE)).1.authentication_tag
      = some (AuthenticationProtocol.create_session_key P ss s.session_id).2 ∧
    (verify_authentication P s
        (ss.take AuthenticationProtocol.COMMITMENT_SIZE)).1.events
      = s.events ++ ["AUTHENTICATED"] ∧
    (dc.length = 16 → dc ≠ ss.take AuthenticationProtocol.COMMITMENT_SIZE →
      (verify_authentication P s dc).2 = false ∧
      (verify_authentication P s dc).1.state = .ENCAPSULATED ∧
      (verify_authentication P s dc).1.events
        = s.events ++ ["AUTHENTICATION_FAILED"]) ∧
    (verify_authentication P
        (verify_authentication P s
          (ss.take AuthenticationProtocol.COMMITMENT_SIZE)).1 dc2).2 = false := by
  have hok : verify_authentication P s
      (ss.take AuthenticationProtocol.COMMITMENT_SIZE)
      = ({ s with
            session_key :=
              some (AuthenticationProtocol.create_session_key P ss s.session_id).1
            authentication_tag :=
              some (AuthenticationProtocol.create_session_key P ss s.session_id).2
            state := .AUTHENTICATED
            events := s.events ++ ["AUTHENTICATED"] }, true) := by
    simp [verify_authentication, hstate, hss]
  refine ⟨by rw [hok], by rw [hok], by rw [hok], by rw [hok], by rw [hok], ?_, ?_⟩
  · intro hlen hne
    refine ⟨?_, ?_, ?_⟩ <;> simp [verify_authentication, hstate, hss, hne]
  · rw [hok]
    simp [verify_authentication]

/-- Witness for C2 on a concrete `ENCAPSULATED` session with a concrete
wrong commitment. -/
theorem verify_authentication_spec_witness :
    (verify_authentication toyPrims wEncSession
        ((List.replicate 32 7).take AuthenticationProtocol.COMMITMENT_SIZE)).2 = true ∧
    (verify_authentication toyPrims wEncSession
        ((List.replicate 32 7).take AuthenticationProtocol.COMMITMENT_SIZE)).1.state
      = .AUTHENTICATED ∧
    (verify_authentication toyPrims wEncSession
        ((List.replicate 32 7).take AuthenticationProtocol.COMMITMENT_SIZE)).1.session_key
      = some (AuthenticationProtocol.create_session_key toyPrims (List.replicate 32 7)
          wEncSession.session_id).1 ∧
    (verify_authentication toyPrims wEncSession
        ((List.replicate 32 7).take
          AuthenticationProtocol.COMMITMENT_SIZE)).1.authentication_tag
      = some (AuthenticationProtocol.create_session_key toyPrims (List.replicate 32 7)
          wEncSession.session_id).2 ∧
    (verify_authentication toyPrims wEncSession
        ((List.replicate 32 7).take AuthenticationProtocol.COMMITMENT_SIZE)).1.events
      = wEncSession.events ++ ["AUTHENTICATED"] ∧
    ((List.replicate 16 0 : Bytes).length = 16 →
      (List.replicate 16 0 : Bytes)
          ≠ (List.replicate 32 7).take AuthenticationProtocol.COMMITMENT_SIZE →
      (verify_authentication toyPrims wEncSession (List.replicate 16 0)).2 = false ∧
      (verify_authentication toyPrims wEncSession (List.replicate 16 0)).1.state
        = .ENCAPSULATED ∧
      (verify_authentication toyPrims wEncSession (List.replicate 16 0)).1.events
        = wEncSession.events ++ ["AUTHENTICATION_FAILED"]) ∧
    (verify_authentication toyPrims
        (verify_authentication toyPrims wEncSession
          ((List.replicate 32 7).take AuthenticationProtocol.COMMITMENT_SIZE)).1
        (List.replicate 16 7)).2 = false :=
  verify_authentication_spec toyPrims wEncSession (List.replicate 32 7)
    (List.replicate 16 0) (List.replicate 16 7) (by decide) (by decide)

/-- The population invariant of C7: the shared secret is present exactly
from `ENCAPSULATED` on, and the session key exactly in
`AUTHENTICATED`. -/
def SessionInv (s : Session) : Prop :=
  (s.shared_secret.isSome = true ↔
    (s.state = .ENCAPSULATED ∨ s.state = .AUTHENTICATED)) ∧
  (s.session_key.isSome = true ↔ s.state = .AUTHENTICATED)

/-- C7: every session reachable from a fresh session through
`start_authentication` and `verify_authentication` satisfies the
population invariant. -/
theorem session_population_invariant (P : CryptoPrims) (sid : Bytes)
    (s : Session) (h : Reach P sid s) : SessionInv s := by
  induction h with
  | init => simp [SessionInv, initSession]
  | start s0 dpk seed h0 ih =>
    by_cases hst : s0.state = .INITIALIZED
    · have hkey : ¬ s0.session_key.isSome = true := by
        rw [ih.2, hst]
        simp
      constructor
      · simp [start_authentication, hst]
      · simp only [start_authentication, hst, if_true, SessionInv]
        simp [hkey]
    · simp only [start_authentication, hst, if_false]
      exact ih
  | verify s0 dc h0 ih =>
    by_cases hst : s0.state = .ENCAPSULATED
    · cases hss : s0.shared_secret with
      | none =>
        simp only [verify_authentication, hst, if_true, hss]
        exact ih
      | some ss =>
        by_cases hdc : dc = ss.take AuthenticationProtocol.COMMITMENT_SIZE
        · simp only [verify_authentication, hst, if_true, hss, hdc, if_true, SessionInv]
          simp
        · simp only [verify_authentication, hst, if_true, hss]
          rw [if_neg hdc]
          have hkey : ¬ s0.session_key.isSome = true := by
            rw [ih.2, hst]
            simp
          simp [SessionInv, hkey]
    · simp only [verify_authentication, hst, if_false]
      exact ih

/-- Witness for C7 at the freshly constructed session. -/
theorem session_population_invariant_witness : SessionInv (initSession [10, 11]) :=
  session_population_invariant toyPrims [10, 11] (initSession [10, 11]) Reach.init

/-- C3: on an `AUTHENTICATED` session, decrypting the unmodified
`(iv, ciphertext, hmac)` tuple returned by `encrypt_message` recovers
the original plaintext of any length (empty and exactly-one-block
included in the witnesses), and logs `MESSAGE_DECRYPTED`.  The
hypotheses state the block-cipher contract of the abstract AES
primitive and that all byte strings involved are byte-valued. -/
theorem encrypt_decrypt_roundtrip (P : CryptoPrims) (s : Session)
    (key plaintext iv : Bytes) (iv_hex ciphertext_hex hmac_hex : List Nat)
    (hstate : s.state = .AUTHENTICATED) (hkey : s.session_key = some key)
    (hdec : ∀ b : Bytes, b.length = 16 → P.aesDec key (P.aesEnc key b) = b)
    (hencl : ∀ b : Bytes, b.length = 16 → (P.aesEnc key b).length = 16)
    (hencb : ∀ b : Bytes, (∀ x ∈ b, x < 256) → ∀ x ∈ P.aesEnc key b, x < 256)
    (hmacb : ∀ m : Bytes, (∀ x ∈ m, x < 256) → ∀ x ∈ P.hmac key m, x < 256)
    (hiv : iv.length = 16) (hivb : ∀ x ∈ iv, x < 256)
    (hptb : ∀ x ∈ plaintext, x < 256)
    (henc : encrypt_message P s plaintext iv = .ok iv_hex ciphertext_hex hmac_hex) :
    decrypt_message P s iv_hex ciphertext_hex hmac_hex
      = ({ s with events := s.events ++ ["MESSAGE_DECRYPTED"] }, some plaintext) := by
  have hctb : ∀ x ∈ cbcEnc P key iv (pad plaintext), x < 256 :=
    cbcEnc_bytes P key hencb iv (pad plaintext) hivb (pad_bytes plaintext hptb)
  have hmacbb : ∀ x ∈ P.hmac key (cbcEnc P key iv (pad plaintext)), x < 256 :=
    hmacb _ hctb
  have hcbc : cbcDec P key iv (cbcEnc P key iv (pad plaintext)) = pad plaintext :=
    cbcDec_cbcEnc P key hdec hencl iv (pad plaintext) hiv (pad_length_mod plaintext)
  simp only [encrypt_message, hstate, if_true, hkey, eq_self_iff_true, ite_true,
    EncResult.ok.injEq] at henc
  obtain ⟨h1, h2, h3⟩ := henc
  subst h1
  subst h2
  subst h3
  simp [decrypt_message, hstate, hkey, hexToBytes_bytesToHex iv hivb,
    hexToBytes_bytesToHex _ hctb, hexToBytes_bytesToHex _ hmacbb, hcbc, unpad_pad]

/-- IV, plaintext, ciphertext and MAC used by the C3 witness (empty
plaintext). -/
def wIv : Bytes := List.replicate 16 0

/-- Empty plaintext for the C3 witness. -/
def wPt : Bytes := []

/-- Ciphertext the C3 witness expects from `encrypt_message`. -/
def wCt : Bytes := cbcEnc toyPrims wKey wIv (pad wPt)

/-- MAC the C3 witness expects from `encrypt_message`. -/
def wMac : Bytes := toyPrims.hmac wKey wCt

/-- Witness for C3: concrete round trip of the empty message on a
concrete authenticated session under the concrete primitives. -/
theorem encrypt_decrypt_roundtrip_witness :
    decrypt_message toyPrims wAuthSession (bytesToHex wIv) (bytesToHex wCt)
        (bytesToHex wMac)
      = ({ wAuthSession with
            events := wAuthSession.events ++ ["MESSAGE_DECRYPTED"] }, some wPt) :=
  encrypt_decrypt_roundtrip toyPrims wAuthSession wKey wPt wIv
    (bytesToHex wIv) (bytesToHex wCt) (bytesToHex wMac)
    rfl rfl
    (fun b _ => by simp [toyPrims])
    (fun b hb => by simp [toyPrims, hb])
    (fun b hb x hx => hb x (by simpa [toyPrims] using hx))
    (fun m hm x hx => by
      simp only [toyPrims, List.mem_append] at hx
      rcases hx with hx | hx
      · have hx1 : x = 1 := by simpa [wKey] using hx
        omega
      · exact hm x hx)
    (by decide) (by decide) (by decide)
    rfl

/-- C4: on an `AUTHENTICATED` session holding `key`, for any tuple whose
MAC field is `HMAC(key, ciphertext)` (as `encrypt_message` produces),
flipping any single bit of the MAC, or flipping any single bit of the
ciphertext that changes its MAC, makes `decrypt_message` fail: it logs
`DECRYPTION_HMAC_FAILED` and returns `None`, never a plaintext. -/
theorem decrypt_rejects_bitflip (P : CryptoPrims) (s : Session)
    (key iv ct mac : Bytes) (i j : Nat)
    (hstate : s.state = .AUTHENTICATED) (hkey : s.session_key = some key)
    (hmacdef : mac = P.hmac key ct)
    (hivb : ∀ x ∈ iv, x < 256) (hctb : ∀ x ∈ ct, x < 256)
    (hmacbytes : ∀ x ∈ mac, x < 256) (hj : j < 8) :
    (i < mac.length →
      decrypt_message P s (bytesToHex iv) (bytesToHex ct)
          (bytesToHex (flipBit mac i j))
        = ({ s with events := s.events ++ ["DECRYPTION_HMAC_FAILED"] }, none)) ∧
    (i < ct.length → P.hmac key (flipBit ct i j) ≠ P.hmac key ct →
      decrypt_message P s (bytesToHex iv) (bytesToHex (flipBit ct i j))
          (bytesToHex mac)
        = ({ s with events := s.events ++ ["DECRYPTION_HMAC_FAILED"] }, none)) := by
  constructor
  · intro hi
    have hflipb := flipBit_bytes mac i j hj hmacbytes
    have hne : flipBit mac i j ≠ P.hmac key ct := by
      rw [← hmacdef]
      exact flipBit_ne mac i j hi
    simp [decrypt_message, hstate, hkey, hexToBytes_bytesToHex iv hivb,
      hexToBytes_bytesToHex _ hctb, hexToBytes_bytesToHex _ hflipb, hne]
  · intro hi hcol
    have hflipb := flipBit_bytes ct i j hj hctb
    have hne : mac ≠ P.hmac key (flipBit ct i j) := by
      rw [hmacdef]
      exact fun hcontra => hcol hcontra.symm
    simp [decrypt_message, hstate, hkey, hexToBytes_bytesToHex iv hivb,
      hexToBytes_bytesToHex _ hflipb, hexToBytes_bytesToHex _ hmacbytes, hne]

/-- One-byte ciphertext used by the C4 witness. -/
def wCt4 : Bytes := [5]

/-- Its MAC under the concrete primitives. -/
def wMac4 : Bytes := toyPrims.hmac wKey wCt4

/-- Witness for C4: flipping bit 0 of byte 0 of the MAC, or of the
ciphertext, makes decryption fail on a concrete session. -/
theorem decrypt_rejects_bitflip_witness :
    (0 < wMac4.length →
      decrypt_message toyPrims wAuthSession (bytesToHex wIv) (bytesToHex wCt4)
          (bytesToHex (flipBit wMac4 0 0))
        = ({ wAuthSession with
              events := wAuthSession.events ++ ["DECRYPTION_HMAC_FAILED"] }, none)) ∧
    (0 < wCt4.length →
      toyPrims.hmac wKey (flipBit wCt4 0 0) ≠ toyPrims.hmac wKey wCt4 →
      decrypt_message toyPrims wAuthSession (bytesToHex wIv)
          (bytesToHex (flipBit wCt4 0 0)) (bytesToHex wMac4)
        = ({ wAuthSession with
              events := wAuthSession.events ++ ["DECRYPTION_HMAC_FAILED"] }, none)) :=
  decrypt_rejects_bitflip toyPrims wAuthSession wKey wIv wCt4 wMac4 0 0
    rfl rfl rfl (by decide) (by decide) (by decide) (by decide)
